import Mathlib

/-!
Verification of the LuminaLM memory-adaptive streaming data pipeline.

Shallow embedding of the checkpoint store, prefetch queue, resource
governor (chunk sizing and worker scaling), retry handler, chunk
processing, and the embedding LRU cache, translated from
`src/embeddings/embeddings.py` and `src/tokens/tokenizer.py`.
-/

namespace LuminaLM

/-! ## Checkpoint store (`CheckpointManager`, embeddings.py) -/

/-- Epochs of the retained checkpoint files, oldest first (the
`self.checkpoints` list of `CheckpointManager`: initialized sorted by
modification time, then appended to in save order). -/
abbrev CheckpointList := List Nat

/-- The pruning loop of `_cleanup_old_checkpoints`: while the list is
longer than `max_checkpoints`, pop (and unlink) the oldest entry. -/
def cleanupOldCheckpoints (maxCheckpoints : Nat) (cps : CheckpointList) : CheckpointList :=
  if _h : maxCheckpoints < cps.length then
    cleanupOldCheckpoints maxCheckpoints cps.tail
  else
    cps
termination_by cps.length
decreasing_by
  simp only [List.length_tail]
  omega

/-- `save_checkpoint`: write and append the new record, then prune. -/
def saveCheckpoint (maxCheckpoints : Nat) (cps : CheckpointList) (epoch : Nat) : CheckpointList :=
  cleanupOldCheckpoints maxCheckpoints (cps ++ [epoch])

/-- The record `load_latest_checkpoint` reads: `self.checkpoints[-1]`,
`none` when the list is empty. -/
def latestEpoch (cps : CheckpointList) : Option Nat :=
  cps.getLast?

/-- A checkpoint record as seen by `load_latest_checkpoint`: its epoch and
whether `torch.load` succeeds on it (readable file, fields present). -/
structure CheckpointData where
  epoch : Nat
  valid : Bool
deriving DecidableEq, Repr

/-- `load_latest_checkpoint`: with no checkpoints it logs a warning and
returns `(None, None)` (modelled `.ok none`); otherwise it loads only
`self.checkpoints[-1]`, re-raising the load error if that record is
corrupt (modelled `.error ()`). -/
def loadLatestCheckpoint (cps : List CheckpointData) : Except Unit (Option Nat) :=
  match cps.getLast? with
  | none => .ok none
  | some c => if c.valid then .ok (some c.epoch) else .error ()

/-- Modelled from the spec words, for comparison with the code: scan
candidates from most recent to oldest, skip records failing verification,
return the first valid epoch or `none`; never an error. -/
def loadLatestSpec (cps : List CheckpointData) : Option Nat :=
  (cps.reverse.find? (fun c => c.valid)).map (fun c => c.epoch)

/-! ## Crash model of the two save paths -/

/-- Contents of a path during a (possibly interrupted) save. -/
inductive FileContent where
  | absent
  | corrupt
  | complete (r : Nat)
deriving DecidableEq, Repr

/-- The two paths a save touches: the final path and the `.tmp` path. -/
structure SaveFS where
  final : FileContent
  tmp : FileContent
deriving DecidableEq, Repr

/-- Primitive file-system steps of a save. A non-atomic file write is the
pair `begin...Write` (data partially on disk, unreadable if interrupted)
then `end...Write` (all data on disk); `replaceTmpWithFinal` is the atomic
`Path.replace` rename. -/
inductive SaveStep where
  | beginTmpWrite
  | endTmpWrite (r : Nat)
  | replaceTmpWithFinal
  | beginFinalWrite
  | endFinalWrite (r : Nat)
deriving DecidableEq, Repr

def applySaveStep (fs : SaveFS) : SaveStep → SaveFS
  | .beginTmpWrite => { fs with tmp := .corrupt }
  | .endTmpWrite r => { fs with tmp := .complete r }
  | .replaceTmpWithFinal => { final := fs.tmp, tmp := .absent }
  | .beginFinalWrite => { fs with final := .corrupt }
  | .endFinalWrite r => { fs with final := .complete r }

def runSaveSteps (fs : SaveFS) (steps : List SaveStep) : SaveFS :=
  steps.foldl applySaveStep fs

/-- `TokenizerPathManager.safe_save`: save the tokenizer to
`save_path.with_suffix('.tmp')`, then `temp_path.replace(save_path)`. -/
def safeSaveSteps (r : Nat) : List SaveStep :=
  [.beginTmpWrite, .endTmpWrite r, .replaceTmpWithFinal]

/-- `CheckpointManager.save_checkpoint`:
`torch.save(checkpoint_data, checkpoint_path)` writes directly to the
final path. -/
def saveCheckpointSteps (r : Nat) : List SaveStep :=
  [.beginFinalWrite, .endFinalWrite r]

/-! ## Prefetch queue (`AsyncPrefetchDataLoader`, embeddings.py) -/

/-- A queue entry: `some batch`, or `none` for the end-of-data sentinel
the producer publishes after exhaustion. -/
abbrev QueueEntry := Option Nat

/-- One step of the bounded `queue.Queue(maxsize=num_prefetch)` used by
`AsyncPrefetchDataLoader`: `put` only completes below capacity (the
producer blocks while the queue is full), `get` removes the oldest
entry. -/
inductive QueueStep (K : Nat) : List QueueEntry → List QueueEntry → Prop
  | put (b : QueueEntry) (q : List QueueEntry) (h : q.length < K) :
      QueueStep K q (q ++ [b])
  | get (b : QueueEntry) (q : List QueueEntry) :
      QueueStep K (b :: q) q

/-- States the queue can reach from a given state by any interleaving of
producer `put`s and consumer `get`s. -/
def queueReach (K : Nat) : List QueueEntry → List QueueEntry → Prop :=
  Relation.ReflTransGen (QueueStep K)

/-- Default `num_prefetch` of `AsyncPrefetchDataLoader`. -/
def numPrefetchDefault : Nat := 3

/-! ## Resource governor: chunk sizing (`ChunkManager`, tokenizer.py) -/

/-- `ChunkManager.min_chunk_size`. -/
def minChunkSize : Nat := 1000

/-- `ChunkManager.max_chunk_size`. -/
def maxChunkSize : Nat := 100000

/-- `chunk_iterator` before producing a chunk: at very high memory usage
(over 95 percent) halve the chunk size, floored at the minimum. -/
def chunkPreAdjust (memPercent chunkSize : Nat) : Nat :=
  if 95 < memPercent then max minChunkSize (chunkSize / 2) else chunkSize

/-- `chunk_iterator` after yielding a chunk: when memory is available
(under 80 percent) double the chunk size, capped at the maximum. -/
def chunkPostAdjust (memPercent chunkSize : Nat) : Nat :=
  if memPercent < 80 then min maxChunkSize (chunkSize * 2) else chunkSize

/-- Net chunk-size adjustment across one `chunk_iterator` loop iteration,
with the memory percentage sampled before (`preMem`) and after
(`postMem`) the yield. -/
def chunkIterAdjust (preMem postMem chunkSize : Nat) : Nat :=
  chunkPostAdjust postMem (chunkPreAdjust preMem chunkSize)

/-- `ChunkManager.get_chunk_size`: eighty percent of available memory over
an 8192-byte record estimate, floored at `min_chunk_size`, in exact
integer arithmetic (the code computes `int(available_memory * 0.8 /
8192)` in floating point; both agree on the inputs used below). -/
def getChunkSize (availableMemory : Nat) : Nat :=
  max minChunkSize (availableMemory * 8 / 10 / 8192)

/-! ## Resource governor: worker scaling (`WorkerManager`, tokenizer.py) -/

/-- `WorkerManager.min_workers`. -/
def minWorkers : Nat := 1

/-- One `psutil` reading, as integer percentages. -/
structure ResourceSample where
  memPercent : Nat
  cpuPercent : Nat
deriving DecidableEq, Repr

/-- `WorkerManager.adjust_workers`, as a function of the sampled memory
and CPU percentages, the configured maximum (`cpu_count`), and the
current worker count. -/
def adjustWorkers (s : ResourceSample) (maxWorkers current : Nat) : Nat :=
  if 90 < s.memPercent ∨ 90 < s.cpuPercent then minWorkers
  else if 80 < s.memPercent ∨ 80 < s.cpuPercent then max minWorkers (current / 2)
  else if s.memPercent < 60 ∧ s.cpuPercent < 60 then min (current * 2) maxWorkers
  else current

/-! ## Retry handler (`RetryHandler`, tokenizer.py) -/

/-- An exception, tagged with whether a retryable-versus-fatal classifier
would call it retryable; `RetryHandler` never consults the tag. -/
structure OpError where
  retryable : Bool
  msg : String
deriving DecidableEq, Repr

/-- Outcome of a `with retry_handler.retry_context(name):` block as the
caller observes it: the body's value, the body's own exception re-raised,
or a RuntimeError raised by the contextlib machinery. -/
inductive RetryOutcome (α : Type) where
  | ok (a : α)
  | originalError (e : OpError)
  | runtimeError (msg : String)
deriving DecidableEq, Repr

/-- `RetryHandler.retry_context` is a `@contextmanager` generator, so the
`with`-body (the wrapped operation `op`) executes at most once. With
`max_retries = 0` the generator's loop never yields and contextlib raises
a RuntimeError. Otherwise the body runs at attempt 0: on success the
generator resumes past the yield and breaks; on failure the exception is
thrown into the generator at the yield, the except branch computes
`base_delay * 2 ** 0`, and either (not the last attempt) sleeps and loops
to a second yield — at which point contextlib raises a generic
RuntimeError instead of retrying — or (`max_retries = 1`, the last
attempt) re-raises the original exception with no sleep. Returns the
observed outcome and the list of sleep delays. -/
def retryContext {α : Type} (op : Except OpError α) (baseDelay maxRetries : Nat) :
    RetryOutcome α × List Nat :=
  match maxRetries with
  | 0 => (.runtimeError "generator did not yield", [])
  | 1 =>
    match op with
    | .ok a => (.ok a, [])
    | .error e => (.originalError e, [])
  | _ + 2 =>
    match op with
    | .ok a => (.ok a, [])
    | .error _ =>
      (.runtimeError "generator did not stop after throw", [baseDelay * 2 ^ 0])

/-! ## Chunk processing (`DataManager._process_chunk`, embeddings.py) -/

/-- Result of `self.tokenizer.encode(text).ids`: `none` when encoding
raises. -/
abbrev Encoder := String → Option (List Nat)

/-- `DataManager._process_chunk`: encode each text; keep only encodings
with at least `srcSeqLen` tokens, truncated to the first `srcSeqLen`
tokens; a text whose encoding raises is logged and skipped. -/
def processChunk (tok : Encoder) (srcSeqLen : Nat) : List String → List (List Nat)
  | [] => []
  | t :: ts =>
    match tok t with
    | none => processChunk tok srcSeqLen ts
    | some tokens =>
      if srcSeqLen ≤ tokens.length then
        tokens.take srcSeqLen :: processChunk tok srcSeqLen ts
      else
        processChunk tok srcSeqLen ts

/-! ## Embedding cache (`EmbeddingGenerator`, embeddings.py) -/

/-- The `OrderedDict` embedding cache: key-value pairs, least recently
updated first (the `popitem(last=False)` end), most recently updated
last. -/
abbrev EmbedCache := List (String × Nat)

def cacheKeys (c : EmbedCache) : List String := c.map Prod.fst

/-- `EmbeddingGenerator._update_cache`: on a present key, `move_to_end`
and overwrite; otherwise evict the front entry when at capacity, then
insert at the back. -/
def updateCache (cacheSize : Nat) (c : EmbedCache) (key : String) (v : Nat) : EmbedCache :=
  if (cacheKeys c).contains key then
    c.filter (fun p => p.1 != key) ++ [(key, v)]
  else if cacheSize ≤ c.length then
    c.tail ++ [(key, v)]
  else
    c ++ [(key, v)]

/-- `EmbeddingGenerator.get_embedding` with `cache_only = False`: a cache
hit returns the stored value without touching the order; a miss generates
the embedding (`gen`) and inserts it via `_update_cache`. -/
def getEmbedding (cacheSize : Nat) (gen : String → Nat) (c : EmbedCache) (key : String) :
    Nat × EmbedCache :=
  match c.find? (fun p => p.1 == key) with
  | some p => (p.2, c)
  | none => (gen key, updateCache cacheSize c key (gen key))

/-- Modelled from the spec words, for comparison with the code: like
`getEmbedding`, but a read also moves the key to the most-recently-used
position, as strict least-recently-used order requires. -/
def getEmbeddingSpecLRU (cacheSize : Nat) (gen : String → Nat) (c : EmbedCache) (key : String) :
    Nat × EmbedCache :=
  match c.find? (fun p => p.1 == key) with
  | some p => (p.2, c.filter (fun q => q.1 != key) ++ [(key, p.2)])
  | none => (gen key, updateCache cacheSize c key (gen key))

/-! ## Helper lemmas -/

theorem cleanupOld_eq_drop (maxC : Nat) (cps : CheckpointList) :
    cleanupOldCheckpoints maxC cps = cps.drop (cps.length - maxC) := by
  induction cps with
  | nil =>
    unfold cleanupOldCheckpoints
    simp
  | cons a t ih =>
    unfold cleanupOldCheckpoints
    by_cases h : maxC < (a :: t).length
    · simp only [h, dite_true, List.tail_cons, ih]
      have harith : (a :: t).length - maxC = (t.length - maxC) + 1 := by
        simp only [List.length_cons] at h ⊢
        omega
      rw [harith, List.drop_succ_cons]
    · simp only [h, dite_false]
      have harith : (a :: t).length - maxC = 0 := by
        simp only [List.length_cons] at h ⊢
        omega
      rw [harith, List.drop_zero]

theorem foldl_saveCheckpoint (maxC : Nat) :
    ∀ (es : List Nat) (s : CheckpointList), es ≠ [] →
      es.foldl (saveCheckpoint maxC) s = (s ++ es).drop ((s ++ es).length - maxC) := by
  intro es
  induction es with
  | nil => intro s h; exact absurd rfl h
  | cons e es ih =>
    intro s _
    rw [List.foldl_cons]
    cases es with
    | nil =>
      show saveCheckpoint maxC s e = _
      rw [saveCheckpoint, cleanupOld_eq_drop]
    | cons e' es' =>
      rw [ih (saveCheckpoint maxC s e) (by simp)]
      rw [saveCheckpoint, cleanupOld_eq_drop]
      have hle : (s ++ [e]).length - maxC ≤ (s ++ [e]).length := Nat.sub_le _ _
      have hsplit : ((s ++ [e]) ++ e' :: es').drop ((s ++ [e]).length - maxC)
          = (s ++ [e]).drop ((s ++ [e]).length - maxC) ++ e' :: es' := by
        rw [List.drop_append_eq_append_drop, Nat.sub_eq_zero_of_le hle, List.drop_zero]
      rw [← hsplit, List.drop_drop]
      have hassoc : (s ++ [e]) ++ e' :: es' = s ++ e :: e' :: es' := by simp
      rw [hassoc]
      congr 1
      simp only [List.length_drop, List.length_append, List.length_cons,
        List.length_singleton, List.length_nil]
      omega

theorem getLast?_drop_of_lt {α : Type} :
    ∀ (l : List α) (k : Nat), k < l.length → (l.drop k).getLast? = l.getLast? := by
  intro l
  induction l with
  | nil => intro k h; simp at h
  | cons a t ih =>
    intro k h
    cases k with
    | zero => simp
    | succ k =>
      have ht : k < t.length := by simpa using h
      rw [List.drop_succ_cons, ih k ht]
      cases t with
      | nil => simp at ht
      | cons b t' => rw [List.getLast?_cons_cons]

theorem sorted_all_le_getLast :
    ∀ (l : List Nat) (m : Nat), List.Pairwise (· < ·) l → l.getLast? = some m →
      ∀ x ∈ l, x ≤ m := by
  intro l
  induction l with
  | nil => intro m _ _ x hx; simp at hx
  | cons a t ih =>
    intro m hp hl x hx
    cases t with
    | nil =>
      simp only [List.getLast?_singleton, Option.some.injEq] at hl
      simp only [List.mem_singleton] at hx
      omega
    | cons b t' =>
      rw [List.getLast?_cons_cons] at hl
      have hm_mem : m ∈ b :: t' := by
        have := List.mem_getLast?_eq_getLast (l := b :: t') (x := m) (by rw [hl]; rfl)
        obtain ⟨hne, hx'⟩ := this
        rw [hx']
        exact List.getLast_mem hne
      rcases List.mem_cons.mp hx with h | h
      · subst h
        exact Nat.le_of_lt ((List.pairwise_cons.mp hp).1 m hm_mem)
      · exact ih m (List.pairwise_cons.mp hp).2 hl x h

/-! ## C1: atomic save versus direct write -/

/-- C1 counterexample: the checkpoint store's own save
(`CheckpointManager.save_checkpoint`) writes directly to the final path,
so a crash after the write has begun but before it completes leaves a
corrupt record visible at the final path, contradicting the claim that
every save writes to a temporary location first. -/
theorem saveCheckpoint_crash_corrupt :
    (runSaveSteps ⟨.complete 0, .absent⟩ ((saveCheckpointSteps 1).take 1)).final =
      .corrupt := rfl

/-- C1 amended: `TokenizerPathManager.safe_save` does write to a temporary
path and atomically rename, so interrupting it after any prefix of its
steps never leaves a corrupt record at the final path; the claim fails
only for `CheckpointManager.save_checkpoint`, which writes directly. -/
theorem safeSave_crash_safe (fs : SaveFS) (r : Nat) (hf : fs.final ≠ .corrupt) (k : Nat) :
    (runSaveSteps fs ((safeSaveSteps r).take k)).final ≠ .corrupt := by
  match k with
  | 0 => simpa [runSaveSteps, safeSaveSteps] using hf
  | 1 => simpa [runSaveSteps, safeSaveSteps, applySaveStep] using hf
  | 2 => simpa [runSaveSteps, safeSaveSteps, applySaveStep] using hf
  | n + 3 => simp [runSaveSteps, safeSaveSteps, applySaveStep]

/-- C1 witness for `safeSave_crash_safe` at a concrete file system, record
and crash point. -/
theorem safeSave_crash_safe_witness :
    (runSaveSteps ⟨.complete 0, .absent⟩ ((safeSaveSteps 5).take 2)).final ≠ .corrupt :=
  safeSave_crash_safe ⟨.complete 0, .absent⟩ 5 (by decide) 2

/-! ## C2: load-latest fallback behaviour -/

/-- C2 counterexample: with a valid older checkpoint and a corrupt most
recent one, `load_latest_checkpoint` raises (instead of skipping to the
next-most-recent valid record, which the spec-modelled scan returns). -/
theorem loadLatest_raises_on_corrupt_latest :
    loadLatestCheckpoint [⟨1, true⟩, ⟨2, false⟩] = .error () ∧
    loadLatestSpec [⟨1, true⟩, ⟨2, false⟩] = some 1 := ⟨rfl, rfl⟩

/-- C2 amended: `load_latest_checkpoint` reports "no checkpoint
available" non-fatally when the set is empty, and loads the most recent
record when it is valid; but when the most recent record fails
verification it re-raises the error rather than trying the
next-most-recent candidate. -/
theorem loadLatestCheckpoint_behavior (cps : List CheckpointData) :
    (cps = [] → loadLatestCheckpoint cps = .ok none) ∧
    (∀ c, cps.getLast? = some c → c.valid = true →
      loadLatestCheckpoint cps = .ok (some c.epoch)) ∧
    (∀ c, cps.getLast? = some c → c.valid = false →
      loadLatestCheckpoint cps = .error ()) := by
  refine ⟨?_, ?_, ?_⟩
  · intro h
    subst h
    rfl
  · intro c hc hv
    rw [loadLatestCheckpoint, hc]
    simp [hv]
  · intro c hc hv
    rw [loadLatestCheckpoint, hc]
    simp [hv]

/-- C2 witness for `loadLatestCheckpoint_behavior` at concrete checkpoint
sets. -/
theorem loadLatestCheckpoint_behavior_witness :
    loadLatestCheckpoint [⟨3, true⟩] = .ok (some 3) ∧
    loadLatestCheckpoint [] = .ok none :=
  ⟨(loadLatestCheckpoint_behavior [⟨3, true⟩]).2.1 ⟨3, true⟩ rfl rfl,
   (loadLatestCheckpoint_behavior []).1 rfl⟩

/-! ## C3: retention bound and latest record -/

/-- C3: after any nonempty sequence of saves the store retains at most
`max_checkpoints` records, and after more saves than `max_checkpoints`
with strictly increasing epochs (the run invariant), the record
`load_latest_checkpoint` reads is the retained record with the highest
epoch. -/
theorem checkpoint_retention_latest (maxC : Nat) (s : CheckpointList) (es : List Nat) :
    (es ≠ [] → (es.foldl (saveCheckpoint maxC) s).length ≤ maxC) ∧
    (1 ≤ maxC → maxC < es.length → List.Pairwise (· < ·) es →
      ∃ m, latestEpoch (es.foldl (saveCheckpoint maxC) []) = some m ∧
        m ∈ es.foldl (saveCheckpoint maxC) [] ∧
        ∀ x ∈ es.foldl (saveCheckpoint maxC) [], x ≤ m) := by
  constructor
  · intro hne
    rw [foldl_saveCheckpoint maxC es s hne, List.length_drop]
    omega
  · intro h1 hlen hsorted
    have hne : es ≠ [] := by
      intro h
      subst h
      simp at hlen
    rw [foldl_saveCheckpoint maxC es [] hne]
    simp only [List.nil_append]
    have hklt : es.length - maxC < es.length := by omega
    have hlast : (es.drop (es.length - maxC)).getLast? = es.getLast? :=
      getLast?_drop_of_lt es (es.length - maxC) hklt
    refine ⟨es.getLast hne, ?_, ?_, ?_⟩
    · rw [latestEpoch, hlast, List.getLast?_eq_getLast es hne]
    · have := List.mem_getLast?_eq_getLast (l := es.drop (es.length - maxC))
        (x := es.getLast hne)
        (by rw [hlast, List.getLast?_eq_getLast es hne]; rfl)
      obtain ⟨hne', hx'⟩ := this
      rw [hx']
      exact List.getLast_mem hne'
    · have hpair : List.Pairwise (· < ·) (es.drop (es.length - maxC)) :=
        List.Pairwise.sublist (List.drop_sublist _ _) hsorted
      exact sorted_all_le_getLast _ _ hpair
        (by rw [hlast, List.getLast?_eq_getLast es hne])

/-- C3 witness for `checkpoint_retention_latest`: four saves with
`max_checkpoints = 3`. -/
theorem checkpoint_retention_latest_witness :
    (([0, 1, 2, 3] : List Nat).foldl (saveCheckpoint 3) []).length ≤ 3 ∧
    ∃ m, latestEpoch (([0, 1, 2, 3] : List Nat).foldl (saveCheckpoint 3) []) = some m ∧
      m ∈ ([0, 1, 2, 3] : List Nat).foldl (saveCheckpoint 3) [] ∧
      ∀ x ∈ ([0, 1, 2, 3] : List Nat).foldl (saveCheckpoint 3) [], x ≤ m :=
  ⟨(checkpoint_retention_latest 3 [] [0, 1, 2, 3]).1 (by decide),
   (checkpoint_retention_latest 3 [] [0, 1, 2, 3]).2 (by decide) (by decide) (by decide)⟩

/-! ## C4: bounded prefetch queue -/

/-- C4: any state the prefetch queue reaches from empty, under any
interleaving of producer puts and consumer gets, holds at most `K`
entries. -/
theorem prefetchQueue_bounded (K : Nat) (q : List QueueEntry)
    (h : queueReach K [] q) : q.length ≤ K := by
  induction h with
  | refl => simp
  | tail _ step ih =>
    cases step with
    | put b q' hlt => simpa using hlt
    | get b q' =>
      simp only [List.length_cons] at ih
      omega

/-- C4 witness for `prefetchQueue_bounded`: one put into an empty queue of
the default capacity. -/
theorem prefetchQueue_bounded_witness :
    ([some 0] : List QueueEntry).length ≤ numPrefetchDefault :=
  prefetchQueue_bounded numPrefetchDefault [some 0]
    (Relation.ReflTransGen.single (QueueStep.put (some 0) [] (by decide)))

/-! ## C5: monotone shrink under sustained pressure -/

theorem scanl_antitone_of_step {α : Type} (f : Nat → α → Nat) (P : Nat → Prop) :
    ∀ (l : List α) (c : Nat), P c → (∀ x a, a ∈ l → P x → f x a ≤ x ∧ P (f x a)) →
      List.Chain' (fun x y => y ≤ x) (List.scanl f c l) ∧
      ∀ x ∈ List.scanl f c l, P x := by
  intro l
  induction l with
  | nil =>
    intro c hc _
    refine ⟨by simp, ?_⟩
    intro x hx
    simp only [List.scanl_nil, List.mem_singleton] at hx
    exact hx ▸ hc
  | cons a l ih =>
    intro c hc hstep
    have hfa := hstep c a (by simp) hc
    have ihh := ih (f c a) hfa.2 (fun x b hb hx => hstep x b (by simp [hb]) hx)
    rw [List.scanl_cons, List.singleton_append]
    constructor
    · rw [List.chain'_cons']
      refine ⟨?_, ihh.1⟩
      intro h hh
      have hhead : (List.scanl f (f c a) l).head? = some (f c a) := by
        cases l <;> simp [List.scanl_nil, List.scanl_cons]
      rw [hhead] at hh
      simp only [Option.mem_def, Option.some.injEq] at hh
      exact hh ▸ hfa.1
    · intro x hx
      rcases List.mem_cons.mp hx with h | h
      · exact h ▸ hc
      · exact ihh.2 x h

/-- C5: under sustained memory pressure above the critical threshold, the
chunk sizes chosen across `chunk_iterator` iterations and the worker
counts chosen by `adjust_workers` are non-increasing, and neither ever
falls below its configured minimum. -/
theorem governor_nonincreasing_under_pressure
    (reads : List (Nat × Nat)) (c0 : Nat) (hc0 : minChunkSize ≤ c0)
    (hpress : ∀ p ∈ reads, 95 < p.1 ∧ 95 < p.2)
    (samples : List ResourceSample) (maxWorkers w0 : Nat) (hw0 : minWorkers ≤ w0)
    (hwpress : ∀ s ∈ samples, 90 < s.memPercent) :
    (List.Chain' (fun x y => y ≤ x)
        (List.scanl (fun c p => chunkIterAdjust p.1 p.2 c) c0 reads) ∧
      ∀ x ∈ List.scanl (fun c p => chunkIterAdjust p.1 p.2 c) c0 reads,
        minChunkSize ≤ x) ∧
    (List.Chain' (fun x y => y ≤ x)
        (List.scanl (fun w s => adjustWorkers s maxWorkers w) w0 samples) ∧
      ∀ x ∈ List.scanl (fun w s => adjustWorkers s maxWorkers w) w0 samples,
        minWorkers ≤ x) := by
  constructor
  · apply scanl_antitone_of_step _ _ reads c0 hc0
    intro x p hp hx
    obtain ⟨h1, h2⟩ := hpress p hp
    have heq : chunkIterAdjust p.1 p.2 x = max minChunkSize (x / 2) := by
      unfold chunkIterAdjust chunkPreAdjust chunkPostAdjust
      rw [if_pos h1, if_neg (by omega : ¬ p.2 < 80)]
    rw [heq]
    exact ⟨Nat.max_le.mpr ⟨hx, Nat.div_le_self x 2⟩, Nat.le_max_left _ _⟩
  · apply scanl_antitone_of_step _ _ samples w0 hw0
    intro x s hs hx
    have heq : adjustWorkers s maxWorkers x = minWorkers := by
      unfold adjustWorkers
      rw [if_pos (Or.inl (hwpress s hs))]
    rw [heq]
    exact ⟨hx, Nat.le_refl _⟩

/-- C5 witness for `governor_nonincreasing_under_pressure` at concrete
pressure readings. -/
theorem governor_nonincreasing_under_pressure_witness :
    (List.Chain' (fun x y => y ≤ x)
        (List.scanl (fun c p => chunkIterAdjust p.1 p.2 c) 2000 [(96, 96), (97, 96)]) ∧
      ∀ x ∈ List.scanl (fun c p => chunkIterAdjust p.1 p.2 c) 2000 [(96, 96), (97, 96)],
        minChunkSize ≤ x) ∧
    (List.Chain' (fun x y => y ≤ x)
        (List.scanl (fun w s => adjustWorkers s 8 w) 4 [⟨96, 50⟩]) ∧
      ∀ x ∈ List.scanl (fun w s => adjustWorkers s 8 w) 4 [⟨96, 50⟩],
        minWorkers ≤ x) :=
  governor_nonincreasing_under_pressure [(96, 96), (97, 96)] 2000 (by decide)
    (by decide) [⟨96, 50⟩] 8 4 (by decide) (by decide)

/-! ## C6: bounds on governor state -/

/-- C6 counterexample: the initially chosen chunk size is not within the
configured bounds: `get_chunk_size` floors at `min_chunk_size` but never
caps at `max_chunk_size`, so with two billion bytes of available memory
it returns 195312, above the configured maximum of 100000. -/
theorem getChunkSize_exceeds_max :
    maxChunkSize < getChunkSize 2000000000 := by decide

/-- C6 amended: every adjustment step keeps the chunk size and the worker
count within their configured bounds when they start within them, and
`get_chunk_size` respects the minimum; but `get_chunk_size` has no upper
clamp, so the initially chosen chunk size can exceed the maximum. -/
theorem governor_bounds_amended :
    (∀ availableMemory, minChunkSize ≤ getChunkSize availableMemory) ∧
    (∀ preMem postMem c, minChunkSize ≤ c → c ≤ maxChunkSize →
      minChunkSize ≤ chunkIterAdjust preMem postMem c ∧
        chunkIterAdjust preMem postMem c ≤ maxChunkSize) ∧
    (∀ (s : ResourceSample) maxWorkers w, minWorkers ≤ w → w ≤ maxWorkers →
      minWorkers ≤ adjustWorkers s maxWorkers w ∧
        adjustWorkers s maxWorkers w ≤ maxWorkers) := by
  refine ⟨?_, ?_, ?_⟩
  · intro availableMemory
    exact Nat.le_max_left _ _
  · intro preMem postMem c h1 h2
    simp only [chunkIterAdjust, chunkPreAdjust, chunkPostAdjust, minChunkSize,
      maxChunkSize] at *
    split_ifs <;> omega
  · intro s maxWorkers w h1 h2
    simp only [adjustWorkers, minWorkers] at *
    split_ifs <;> omega

/-- C6 witness for `governor_bounds_amended` at concrete inputs. -/
theorem governor_bounds_amended_witness :
    minChunkSize ≤ getChunkSize 0 ∧
    (minChunkSize ≤ chunkIterAdjust 96 96 5000 ∧
      chunkIterAdjust 96 96 5000 ≤ maxChunkSize) ∧
    (minWorkers ≤ adjustWorkers ⟨50, 50⟩ 8 4 ∧ adjustWorkers ⟨50, 50⟩ 8 4 ≤ 8) :=
  ⟨governor_bounds_amended.1 0,
   governor_bounds_amended.2.1 96 96 5000 (by decide) (by decide),
   governor_bounds_amended.2.2 ⟨50, 50⟩ 8 4 (by decide) (by decide)⟩

/-! ## C7: the retry executor cannot retry -/

/-- C7: the retry executor does not implement its documented contract:
`retry_context` is a generator context manager whose `with`-body can run
only once, so an operation failing with a retryable transient error under
`max_retries = 3` gets exactly one attempt and one `base_delay` sleep,
after which contextlib raises a generic RuntimeError — not up to
`max_retries` attempts with delays `base_delay * 2 ^ i` ending in the
original error, which is what the handler's docstring, its log messages
and the claim describe. -/
theorem retryContext_single_attempt_runtime_error :
    retryContext (.error ⟨true, "transient io error"⟩ : Except OpError Unit) 1 3
      = (.runtimeError "generator did not stop after throw", [1]) := rfl

/-! ## C8: per-record failure isolation in chunk processing -/

/-- C8: a record whose transform raises is dropped without affecting the
rest of the chunk (removing it from the input leaves the output
unchanged), and a chunk in which every record fails still yields an
empty batch rather than a failure. -/
theorem processChunk_failure_isolation (tok : Encoder) (n : Nat) :
    (∀ (xs ys : List String) (bad : String), tok bad = none →
      processChunk tok n (xs ++ bad :: ys) = processChunk tok n (xs ++ ys)) ∧
    (∀ ts : List String, (∀ t ∈ ts, tok t = none) → processChunk tok n ts = []) := by
  constructor
  · intro xs ys bad hbad
    induction xs with
    | nil => simp [processChunk, hbad]
    | cons x xs ih =>
      simp only [List.cons_append, processChunk]
      cases htok : tok x with
      | none => simp [htok, ih]
      | some tokens => simp [htok, ih]
  · intro ts hall
    induction ts with
    | nil => rfl
    | cons t ts ih =>
      have h1 : tok t = none := hall t (by simp)
      have h2 := ih (fun x hx => hall x (by simp [hx]))
      simp [processChunk, h1, h2]

/-- C8 witness for `processChunk_failure_isolation` with a concrete
encoder that fails on the record "bad". -/
theorem processChunk_failure_isolation_witness :
    processChunk (fun s => if s = "bad" then none else some [1, 2, 3]) 2
        (["x"] ++ "bad" :: ["y"]) =
      processChunk (fun s => if s = "bad" then none else some [1, 2, 3]) 2 (["x"] ++ ["y"]) ∧
    processChunk (fun s => if s = "bad" then none else some [1, 2, 3]) 2 ["bad"] = [] :=
  ⟨(processChunk_failure_isolation (fun s => if s = "bad" then none else some [1, 2, 3]) 2).1
      ["x"] ["y"] "bad" (by decide),
   (processChunk_failure_isolation (fun s => if s = "bad" then none else some [1, 2, 3]) 2).2
      ["bad"] (by decide)⟩

/-! ## C10: truncation to the source sequence length, omission of short texts -/

/-- C10: the per-chunk tokenization keeps exactly the texts whose encoding
has at least `srcSeqLen` tokens, truncated to the first `srcSeqLen`
tokens, silently omitting shorter ones, and every returned sequence has
length exactly `srcSeqLen`. -/
theorem processChunk_truncation_omission (tok : Encoder) (n : Nat) (texts : List String) :
    processChunk tok n texts =
      texts.filterMap (fun t => (tok t).bind
        (fun tokens => if n ≤ tokens.length then some (tokens.take n) else none)) ∧
    ∀ out ∈ processChunk tok n texts, out.length = n := by
  have hchar : processChunk tok n texts =
      texts.filterMap (fun t => (tok t).bind
        (fun tokens => if n ≤ tokens.length then some (tokens.take n) else none)) := by
    induction texts with
    | nil => rfl
    | cons t ts ih =>
      cases htok : tok t with
      | none => simp [processChunk, htok, ih]
      | some tokens =>
        by_cases hlen : n ≤ tokens.length
        · simp [processChunk, htok, hlen, ih]
        · simp [processChunk, htok, hlen, ih]
  refine ⟨hchar, ?_⟩
  intro out hout
  rw [hchar] at hout
  obtain ⟨t, _, heq⟩ := List.mem_filterMap.mp hout
  cases htok : tok t with
  | none =>
    rw [htok] at heq
    simp at heq
  | some tokens =>
    rw [htok] at heq
    simp only [Option.some_bind] at heq
    by_cases hlen : n ≤ tokens.length
    · rw [if_pos hlen] at heq
      obtain rfl : tokens.take n = out := Option.some.inj heq
      rw [List.length_take]
      exact Nat.min_eq_left hlen
    · rw [if_neg hlen] at heq
      exact absurd heq (by simp)

/-- C10 witness for `processChunk_truncation_omission`: a five-token text
is truncated to three tokens, a two-token text is omitted. -/
theorem processChunk_truncation_omission_witness :
    ([0, 1, 2] : List Nat).length = 3 :=
  (processChunk_truncation_omission (fun s => some (List.range s.length)) 3
    ["hello", "hi"]).2 [0, 1, 2] (by decide)

/-! ## C9: cache capacity and recency order -/

/-- C9 counterexample: with capacity 2 and accesses a, b, a, c the code
evicts "a" even though "a" was read after "b" was inserted; under the
claimed strict least-recently-used order (reads refresh recency, modelled
by `getEmbeddingSpecLRU`) "b" would be evicted and "a" retained. -/
theorem cache_eviction_not_lru_by_access :
    cacheKeys (getEmbedding 2 (fun _ => 0)
        (getEmbedding 2 (fun _ => 0)
          (getEmbedding 2 (fun _ => 0)
            (getEmbedding 2 (fun _ => 0) [] "a").2 "b").2 "a").2 "c").2 = ["b", "c"] ∧
    cacheKeys (getEmbeddingSpecLRU 2 (fun _ => 0)
        (getEmbeddingSpecLRU 2 (fun _ => 0)
          (getEmbeddingSpecLRU 2 (fun _ => 0)
            (getEmbeddingSpecLRU 2 (fun _ => 0) [] "a").2 "b").2 "a").2 "c").2 = ["a", "c"] :=
  ⟨rfl, rfl⟩

theorem length_filter_lt_of_mem_keys (c : EmbedCache) (key : String)
    (h : key ∈ cacheKeys c) : (c.filter (fun p => p.1 != key)).length < c.length := by
  induction c with
  | nil => simp [cacheKeys] at h
  | cons p rest ih =>
    by_cases hp : p.1 = key
    · have hfalse : (p.1 != key) = false := by simp [hp]
      rw [List.filter_cons, hfalse]
      simp only [Bool.false_eq_true, if_false, List.length_cons]
      exact Nat.lt_succ_of_le (List.length_filter_le _ _)
    · have hkey : key ∈ cacheKeys rest := by
        rcases List.mem_cons.mp h with h' | h'
        · exact absurd h'.symm hp
        · exact h'
      have htrue : (p.1 != key) = true := by simp [hp]
      rw [List.filter_cons, htrue]
      simp only [if_true, List.length_cons]
      exact Nat.succ_lt_succ (ih hkey)

/-- C9 amended: the cache never exceeds its capacity, every write
(update or insert) makes its key the most recently updated, an insert at
full capacity evicts the front entry (the least recently written), but a
cache-hit read returns the stored value without refreshing recency — the
order is least-recently-written, not least-recently-used by access. -/
theorem embedCache_amended (cacheSize : Nat) (gen : String → Nat) :
    (∀ (c : EmbedCache) (key : String) (v : Nat), 1 ≤ cacheSize → c.length ≤ cacheSize →
      (updateCache cacheSize c key v).length ≤ cacheSize) ∧
    (∀ (c : EmbedCache) (key : String) (v : Nat),
      (updateCache cacheSize c key v).getLast? = some (key, v)) ∧
    (∀ (c : EmbedCache) (key : String) (v : Nat),
      (cacheKeys c).contains key = false → cacheSize ≤ c.length →
      updateCache cacheSize c key v = c.tail ++ [(key, v)]) ∧
    (∀ (c : EmbedCache) (key : String) (p : String × Nat),
      c.find? (fun q => q.1 == key) = some p →
      getEmbedding cacheSize gen c key = (p.2, c)) := by
  refine ⟨?_, ?_, ?_, ?_⟩
  · intro c key v h1 h2
    unfold updateCache
    split_ifs with hmem hfull
    · rw [List.length_append]
      have hlt := length_filter_lt_of_mem_keys c key
        (by simpa [cacheKeys] using hmem)
      simp only [List.length_singleton]
      omega
    · rw [List.length_append]
      cases c with
      | nil =>
        simp only [List.length_nil] at hfull
        omega
      | cons p rest =>
        simp only [List.tail_cons, List.length_singleton, List.length_cons,
          List.length_nil] at h2 ⊢
        omega
    · rw [List.length_append]
      simp only [List.length_singleton]
      omega
  · intro c key v
    unfold updateCache
    split_ifs <;> rw [List.getLast?_concat]
  · intro c key v hmem hfull
    unfold updateCache
    rw [if_neg (by rw [hmem]; simp), if_pos hfull]
  · intro c key p hfind
    unfold getEmbedding
    rw [hfind]

/-- C9 witness for `embedCache_amended` at a concrete two-entry cache. -/
theorem embedCache_amended_witness :
    (updateCache 2 [("a", 0), ("b", 1)] "c" 7).length ≤ 2 ∧
    (updateCache 2 [("a", 0), ("b", 1)] "c" 7).getLast? = some ("c", 7) ∧
    updateCache 2 [("a", 0), ("b", 1)] "c" 7 = [("b", 1), ("c", 7)] ∧
    getEmbedding 2 (fun _ => 0) [("a", 0), ("b", 1)] "a" = (0, [("a", 0), ("b", 1)]) :=
  ⟨(embedCache_amended 2 (fun _ => 0)).1 [("a", 0), ("b", 1)] "c" 7 (by decide) (by decide),
   (embedCache_amended 2 (fun _ => 0)).2.1 [("a", 0), ("b", 1)] "c" 7,
   (embedCache_amended 2 (fun _ => 0)).2.2.1 [("a", 0), ("b", 1)] "c" 7 (by decide) (by decide),
   (embedCache_amended 2 (fun _ => 0)).2.2.2 [("a", 0), ("b", 1)] "a" ("a", 0) (by decide)⟩

end LuminaLM
